import Mathlib

/-!
Verification development for the `downtools` batch downloader.

Strings are modelled as `List Char` (Go `string` values), byte
quantities as `Nat`/`Int`, Go `float64` progress arithmetic as exact
rationals `ℚ`, and the effectful pieces (`DownloadFile`, the per-item
URL/retry loop, the cache update) as pure functions over an explicit
environment describing the outcomes of every external call the Go code
makes, in the order the code makes them.
-/

namespace Downtools

/-! ## Constants (`downtypes.go`, `part_004`) -/

def MinValidSpeed : ℚ := 10

def MinRequiredSpeed : ℚ := 1024

def SpeedCheckInterval : Nat := 5

def LowSpeedDuration : Nat := 15

def DownloadBufferSize : Nat := 32 * 1024

def ErrResourceNotFound : String := "RESOURCE_NOT_FOUND"

def ErrLowSpeed : String := "DOWNLOAD_SPEED_TOO_LOW"

/-! ## Go string helpers (`strings.Contains`, `strings.Replace` with n = 1) -/

/-- Go `strings.Contains(s, pat)`: scan every position for `pat` as a prefix. -/
def strContains : List Char → List Char → Bool
  | [], pat => pat.isEmpty
  | c :: rest, pat => pat.isPrefixOf (c :: rest) || strContains rest pat

/-- Go `strings.Replace(s, pat, rep, 1)`: replace the first occurrence of
`pat` in `s` by `rep`, leaving `s` unchanged when `pat` does not occur. -/
def replaceFirst : List Char → List Char → List Char → List Char
  | [], pat, rep => if pat.isEmpty then rep else []
  | c :: rest, pat, rep =>
    if pat.isPrefixOf (c :: rest) then rep ++ (c :: rest).drop pat.length
    else c :: replaceFirst rest pat rep

/-- Number of (possibly overlapping) occurrences of `pat` in `s`: one per
position of `s` at which `pat` is a prefix of the remaining suffix. -/
def countOcc : List Char → List Char → Nat
  | [], pat => if pat.isEmpty then 1 else 0
  | c :: rest, pat => (if pat.isPrefixOf (c :: rest) then 1 else 0) + countOcc rest pat

def githubHost : List Char := "github.com".toList

def rawHost : List Char := "raw.githubusercontent.com".toList

def blobSeg : List Char := "/blob/".toList

def slashSeg : List Char := "/".toList

def releasesSeg : List Char := "/releases/".toList

/-- `ConvertGitHubURL` (`downutils.go`): leave release links alone, otherwise
rewrite the first `github.com` to `raw.githubusercontent.com` and the first
`/blob/` to `/`. -/
def ConvertGitHubURL (url : List Char) : List Char :=
  if strContains url releasesSeg then url
  else replaceFirst (replaceFirst url githubHost rawHost) blobSeg slashSeg

/-- The string `s` contains `q` as a contiguous substring. -/
def OccursIn (q s : List Char) : Prop := ∃ X Y, s = X ++ q ++ Y

/-- Boolean test for "`pat` is a suffix of `s`". -/
def endsWithB (s pat : List Char) : Bool := pat.reverse.isPrefixOf s.reverse

def slashChar : Char := '/'

def blobHead : List Char := "/blob".toList

def blobTail : List Char := "blob/".toList

/-! ## Counting writer (`CountingWriter.Write`) -/

/-- Result of one call of the underlying sink: bytes accepted and error. -/
structure SinkStep where
  accepted : Nat
  werr : Option Nat
deriving DecidableEq

/-- `CountingWriter.Write`: forward the chunk `p` to the underlying sink,
add the accepted count to the counter when positive, and return the sink's
result unmodified.  The last component records the chunk that was handed to
the sink (the code passes `p` itself). -/
def CountingWriter.Write {σ : Type} (sinkWrite : σ → List Nat → σ × SinkStep)
    (s : σ) (counter : ℤ) (p : List Nat) : σ × ℤ × SinkStep × List Nat :=
  let r := sinkWrite s p
  (r.1, (if 0 < r.2.accepted then counter + (r.2.accepted : ℤ) else counter), r.2, p)

/-- A sequence of writes through the counting writer: final sink state,
final counter, results returned to the caller, chunks handed to the sink. -/
def countingRun {σ : Type} (sinkWrite : σ → List Nat → σ × SinkStep) :
    σ → ℤ → List (List Nat) → σ × ℤ × List SinkStep × List (List Nat)
  | s, c, [] => (s, c, [], [])
  | s, c, p :: ps =>
    let w := CountingWriter.Write sinkWrite s c p
    let rest := countingRun sinkWrite w.1 w.2.1 ps
    (rest.1, rest.2.1, w.2.2.1 :: rest.2.2.1, w.2.2.2 :: rest.2.2.2)

/-- The same sequence of writes applied to the bare sink, without the
counting wrapper. -/
def sinkRun {σ : Type} (sinkWrite : σ → List Nat → σ × SinkStep) :
    σ → List (List Nat) → σ × List SinkStep
  | s, [] => (s, [])
  | s, p :: ps =>
    let r := sinkWrite s p
    let rest := sinkRun sinkWrite r.1 ps
    (rest.1, r.2 :: rest.2)

/-! ## Cancellable copy loop (`copyBufferWithContext`, `part_004`) -/

/-- Result of one `src.Read(buf)` call: bytes read and error (`eof` is
Go's `io.EOF`). -/
inductive ReadErr
  | eof
  | failure (code : Nat)
deriving DecidableEq

structure ReadRes where
  nr : Nat
  er : Option ReadErr
deriving DecidableEq

/-- Result of one `dst.Write(buf[0:nr])` call. -/
structure WriteRes where
  nw : Nat
  ew : Option Nat
deriving DecidableEq

inductive CopyError
  | ctxCancelled
  | writeFailed (code : Nat)
  | shortWrite
  | readFailed (code : Nat)
deriving DecidableEq

/-- Whether the context's Done channel is closed at loop iteration `i`:
cancellation is one-shot, so once signalled it stays signalled. -/
def ctxDoneAt : Option Nat → Nat → Bool
  | none, _ => false
  | some n, i => decide (n ≤ i)

/-- `copyBufferWithContext`: each iteration first polls the context, then
reads one buffer, writes what was read, and classifies the outcome exactly
as the Go loop does.  `reads`/`writes` are the successive results of the
source's and sink's calls; `none` means the supplied trace is too short to
determine the loop's result. -/
def copyBufferWithContext (cancelAfter : Option Nat) :
    List ReadRes → List WriteRes → Nat → ℤ → Option (ℤ × Option CopyError)
  | reads, writes, i, written =>
    if ctxDoneAt cancelAfter i then some (written, some CopyError.ctxCancelled)
    else
      match reads with
      | [] => none
      | r :: rs =>
        if 0 < r.nr then
          match writes with
          | [] => none
          | w :: ws =>
            let written1 := if 0 < w.nw then written + (w.nw : ℤ) else written
            match w.ew with
            | some c => some (written1, some (CopyError.writeFailed c))
            | none =>
              if r.nr ≠ w.nw then some (written1, some CopyError.shortWrite)
              else
                match r.er with
                | none => copyBufferWithContext cancelAfter rs ws (i + 1) written1
                | some ReadErr.eof => some (written1, none)
                | some (ReadErr.failure c) => some (written1, some (CopyError.readFailed c))
        else
          match r.er with
          | none => copyBufferWithContext cancelAfter rs writes (i + 1) written
          | some ReadErr.eof => some (written, none)
          | some (ReadErr.failure c) => some (written, some (CopyError.readFailed c))

/-! ## Progress tracker sampling (`updateSpeed`) -/

structure ProgressTracker where
  lastUpdate : ℚ
  lastSize : ℤ
  speed : ℚ
deriving DecidableEq

def NewProgressTracker (startTime : ℚ) : ProgressTracker :=
  { lastUpdate := startTime, lastSize := 0, speed := 0 }

/-- `updateSpeed`: one sampling step at wall time `now` with counter value
`currentSize`; skipped when no time has elapsed. -/
def updateSpeed (pt : ProgressTracker) (now : ℚ) (currentSize : ℤ) : ProgressTracker :=
  let timeElapsed := now - pt.lastUpdate
  if 0 < timeElapsed then
    let instantSpeed : ℚ := ((currentSize - pt.lastSize : ℤ) : ℚ) / timeElapsed
    let newSpeed :=
      if pt.speed = 0 then instantSpeed
      else (7 / 10) * pt.speed + (3 / 10) * instantSpeed
    { lastUpdate := now, lastSize := currentSize, speed := newSpeed }
  else pt

/-- A whole sampling run: samples are (timestamp, counter value) pairs. -/
def runUpdates (pt : ProgressTracker) (samples : List (ℚ × ℤ)) : ProgressTracker :=
  samples.foldl (fun st p => updateSpeed st p.1 p.2) pt

/-- Modelled from the spec: the exponentially-weighted moving average as the
spec words it, seeded by the first sample only (a `seeded` flag instead of
the code's `speed == 0` test), for comparison with `updateSpeed`. -/
structure SpecTracker where
  lastUpdate : ℚ
  lastSize : ℤ
  speed : ℚ
  seeded : Bool
deriving DecidableEq

def specUpdateSpeed (sp : SpecTracker) (now : ℚ) (currentSize : ℤ) : SpecTracker :=
  let timeElapsed := now - sp.lastUpdate
  if 0 < timeElapsed then
    let instantSpeed : ℚ := ((currentSize - sp.lastSize : ℤ) : ℚ) / timeElapsed
    let newSpeed :=
      if sp.seeded then (7 / 10) * sp.speed + (3 / 10) * instantSpeed
      else instantSpeed
    { lastUpdate := now, lastSize := currentSize, speed := newSpeed, seeded := true }
  else sp

def specNewTracker (startTime : ℚ) : SpecTracker :=
  { lastUpdate := startTime, lastSize := 0, speed := 0, seeded := false }

def specRunUpdates (sp : SpecTracker) (samples : List (ℚ × ℤ)) : SpecTracker :=
  samples.foldl (fun st p => specUpdateSpeed st p.1 p.2) sp

/-! ## Known-size progress line (`displayKnownSizeProgress`) -/

inductive ProgressLine
  | withEta (percent : ℚ) (speed : ℚ) (etaSeconds : ℚ)
  | lowSpeed (percent : ℚ) (speed : ℚ)
  | waiting (percent : ℚ)
deriving DecidableEq

/-- `displayKnownSizeProgress`: compute the percentage and, only when the
speed exceeds `MinValidSpeed`, the remaining-time estimate capped at 24
hours (86400 seconds). -/
def displayKnownSizeProgress (fileSize currentSize : ℤ) (speed : ℚ) : ProgressLine :=
  let percent : ℚ := (currentSize : ℚ) / (fileSize : ℚ) * 100
  if MinValidSpeed < speed then
    let remainingSeconds : ℚ := ((fileSize - currentSize : ℤ) : ℚ) / speed
    let capped := if 86400 < remainingSeconds then 86400 else remainingSeconds
    ProgressLine.withEta percent speed capped
  else if 0 < speed then ProgressLine.lowSpeed percent speed
  else ProgressLine.waiting percent

/-- The ETA rendered by the known-size progress line, when one is computed. -/
def etaOf (fileSize currentSize : ℤ) (speed : ℚ) : Option ℚ :=
  match displayKnownSizeProgress fileSize currentSize speed with
  | ProgressLine.withEta _ _ e => some e
  | _ => none

/-! ## Speed watchdog (`MonitorSpeed`, `part_004`) -/

structure MonitorState where
  lowSpeedCount : Nat
  cancelReason : String
  cancelCount : Nat
deriving DecidableEq

def monitorInit : MonitorState :=
  { lowSpeedCount := 0, cancelReason := "", cancelCount := 0 }

/-- `MonitorSpeed`: process the speed observed at each 5-second tick.  A
below-threshold sample bumps the streak; when streak × interval reaches
`LowSpeedDuration` the reason is stored, the cancel callback runs
(`cancelCount` is bumped) and the goroutine returns, dropping all further
ticks.  An above-threshold sample resets the streak. -/
def MonitorSpeed : MonitorState → List ℚ → MonitorState
  | st, [] => st
  | st, s :: rest =>
    if s < MinRequiredSpeed then
      let st1 : MonitorState := { st with lowSpeedCount := st.lowSpeedCount + 1 }
      if LowSpeedDuration ≤ st1.lowSpeedCount * SpeedCheckInterval then
        { st1 with cancelReason := ErrLowSpeed, cancelCount := st1.cancelCount + 1 }
      else MonitorSpeed st1 rest
    else MonitorSpeed { st with lowSpeedCount := 0 } rest

/-! ## `DownloadFile` (`downloader.go` / `part_004`) -/

/-- Outcomes of the external calls `DownloadFile` makes, in program order. -/
structure DlEnv where
  mkdirOk : Bool
  tempCreateOk : Bool
  reqOk : Bool
  /-- `none` means `client.Do` itself failed; otherwise the status code. -/
  respStatus : Option Nat
  /-- The tracker's cancel reason equals `ErrLowSpeed` after the copy. -/
  lowSpeedCancel : Bool
  /-- The copy returned a non-nil error (and the reason was not low speed). -/
  copyFails : Bool
  closeOk : Bool
  destExists : Bool
  oldExists : Bool
  removeOldOk : Bool
  renameToOldOk : Bool
  removeDestOk : Bool
  renameTempOk : Bool
deriving DecidableEq

inductive GoError
  | mkdirFailed
  | tempCreateFailed
  | reqBuildFailed
  | httpDoFailed
  /-- The structured `DownloadError` with its status code and `Type`. -/
  | downloadErr (statusCode : Option Nat) (etype : String)
  | badStatus (code : Nat)
  | copyFailed
  | closeFailed
  | removeOldBackupFailed
  | backupRenameFailed
  | removeDestFailed
  | renameTempFailed
deriving DecidableEq

/-- What `DownloadFile` returns and leaves on disk: its error, whether the
temp file was ever created, whether it is still on disk when the call
returns, and whether the freshly downloaded content sits at the
destination path. -/
structure DlResult where
  err : Option GoError
  tempCreated : Bool
  tempLeft : Bool
  destNew : Bool
deriving DecidableEq

/-- The tail of `DownloadFile`: rename the temp file onto the destination.
`downloadSuccess` was already set, so a failed rename leaves the temp file. -/
def finishRename (e : DlEnv) : DlResult :=
  if e.renameTempOk then ⟨none, true, false, true⟩
  else ⟨some GoError.renameTempFailed, true, true, false⟩

/-- `DownloadFile`, traced step by step from the source.  The cleanup
`defer` (close + remove temp unless `downloadSuccess`) is registered only
after the HTTP status check, and `downloadSuccess` is set before the
old-file handling and the final rename — the model mirrors exactly which
return paths remove the temp file. -/
def DownloadFile (keepOldFile : Bool) (e : DlEnv) : DlResult :=
  if e.mkdirOk = false then ⟨some GoError.mkdirFailed, false, false, false⟩
  else if e.tempCreateOk = false then ⟨some GoError.tempCreateFailed, false, false, false⟩
  else if e.reqOk = false then ⟨some GoError.reqBuildFailed, true, true, false⟩
  else
    match e.respStatus with
    | none => ⟨some GoError.httpDoFailed, true, true, false⟩
    | some status =>
      if status = 404 then
        ⟨some (GoError.downloadErr (some 404) ErrResourceNotFound), true, true, false⟩
      else if status ≠ 200 then ⟨some (GoError.badStatus status), true, true, false⟩
      else if e.lowSpeedCancel then
        ⟨some (GoError.downloadErr none ErrLowSpeed), true, false, false⟩
      else if e.copyFails then ⟨some GoError.copyFailed, true, false, false⟩
      else if e.closeOk = false then ⟨some GoError.closeFailed, true, false, false⟩
      else if e.destExists then
        if keepOldFile then
          if e.oldExists && !e.removeOldOk then
            ⟨some GoError.removeOldBackupFailed, true, true, false⟩
          else if e.renameToOldOk = false then
            ⟨some GoError.backupRenameFailed, true, true, false⟩
          else finishRename e
        else if e.removeDestOk = false then
          ⟨some GoError.removeDestFailed, true, true, false⟩
        else finishRename e
      else finishRename e

/-- Whether a `DownloadFile` result is the structured resource-not-found
error. -/
def isResourceNotFound : Option GoError → Bool
  | some (GoError.downloadErr _ t) => t == ErrResourceNotFound
  | _ => false

/-! ## Per-item URL/retry loop of `ProcessDownItems` (`downutils.go`) -/

inductive AttemptOutcome
  | ok
  | notFound
  | fail
deriving DecidableEq

/-- The URL actually downloaded: blob links on `github.com` are converted. -/
def effectiveURL (url : List Char) : List Char :=
  if strContains url githubHost && strContains url blobSeg then ConvertGitHubURL url
  else url

/-- The retry loop `for attempt := 1; attempt <= retries; attempt++` for one
URL.  `dl attempt` is what `DownloadFile` does on that attempt.  Returns
(success, resourceNotFound, attempts made). -/
def tryFromAttempt (dl : Nat → AttemptOutcome) : Nat → Nat → Bool × Bool × List Nat
  | _, 0 => (false, false, [])
  | attempt, remaining + 1 =>
    match dl attempt with
    | AttemptOutcome.ok => (true, false, [attempt])
    | AttemptOutcome.notFound => (false, true, [attempt])
    | AttemptOutcome.fail =>
      if remaining = 0 then (false, false, [attempt])
      else
        let r := tryFromAttempt dl (attempt + 1) remaining
        (r.1, r.2.1, attempt :: r.2.2)

def tryDownloadURL (dl : Nat → AttemptOutcome) (retries : Nat) : Bool × Bool × List Nat :=
  tryFromAttempt dl 1 retries

/-- The URL loop of `ProcessDownItems` for one item: the loop over
`item.DownloadURLs` stops as soon as one URL succeeds or reports
resource-not-found.  Returns (success, resourceNotFound, attempted
(url, attempt) pairs in order). -/
def ProcessDownItemURLs (dl : List Char → Nat → AttemptOutcome) :
    List (List Char) → Nat → Bool × Bool × List (List Char × Nat)
  | [], _ => (false, false, [])
  | u :: rest, retries =>
    let eu := effectiveURL u
    let r := tryDownloadURL (dl eu) retries
    let tagged := r.2.2.map (fun a => (eu, a))
    if r.1 || r.2.1 then (r.1, r.2.1, tagged)
    else
      let r2 := ProcessDownItemURLs dl rest retries
      (r2.1, r2.2.1, tagged ++ r2.2.2)

/-- A two-URL configuration in which the first URL answers 404 and the
second would succeed. -/
def dlTwoUrls : List Char → Nat → AttemptOutcome := fun u _ =>
  if u = "u1".toList then AttemptOutcome.notFound else AttemptOutcome.ok

/-! ## Download-time cache (`part_001`, `UpdateFileDownloadTime`) -/

/-- `UpdateFileDownloadTime`: resolve the absolute path, load the cache,
set that single key to `now`, save.  `absOf` models `filepath.Abs`,
`loaded` the successfully loaded cache map; `none` is the early error
return when the absolute path cannot be resolved. -/
def UpdateFileDownloadTime (absOf : String → Option String) (now : ℤ)
    (loaded : String → Option ℤ) (filePath : String) : Option (String → Option ℤ) :=
  match absOf filePath with
  | none => none
  | some absPath => some (fun p => if p = absPath then some now else loaded p)

/-! ## Lemmas and claim theorems -/

lemma if_pos_add (a : Nat) (c : ℤ) : (if 0 < a then c + (a : ℤ) else c) = c + (a : ℤ) := by
  rcases Nat.eq_zero_or_pos a with h | h
  · simp [h]
  · simp [h]

/-- Claim C4: for every sequence of writes through the Counting Writer, the
final sink state and the results returned to the caller are exactly those of
the bare sink, the chunks handed to the sink are exactly the chunks written
(stream unaltered), and the final counter is the initial counter plus the sum
of the byte counts the sink actually accepted. -/
theorem countingWriter_counts_accepted_bytes {σ : Type}
    (sinkWrite : σ → List Nat → σ × SinkStep) (s : σ) (c : ℤ) (chunks : List (List Nat)) :
    (countingRun sinkWrite s c chunks).1 = (sinkRun sinkWrite s chunks).1 ∧
    (countingRun sinkWrite s c chunks).2.2.1 = (sinkRun sinkWrite s chunks).2 ∧
    (countingRun sinkWrite s c chunks).2.2.2 = chunks ∧
    (countingRun sinkWrite s c chunks).2.1 =
      c + (((sinkRun sinkWrite s chunks).2.map (fun r => (r.accepted : ℤ))).sum) := by
  induction chunks generalizing s c with
  | nil => simp [countingRun, sinkRun]
  | cons p ps ih =>
    obtain ⟨ih1, ih2, ih3, ih4⟩ :=
      ih (sinkWrite s p).1
        (if 0 < (sinkWrite s p).2.accepted then c + ((sinkWrite s p).2.accepted : ℤ) else c)
    refine ⟨?_, ?_, ?_, ?_⟩
    · simpa [countingRun, sinkRun, CountingWriter.Write] using ih1
    · simpa [countingRun, sinkRun, CountingWriter.Write] using ih2
    · simpa [countingRun, sinkRun, CountingWriter.Write] using ih3
    · have := ih4
      simp only [countingRun, sinkRun, CountingWriter.Write, if_pos_add] at this ⊢
      rw [this]
      simp only [List.map_cons, List.sum_cons]
      ring

/-- Claim C9: `UpdateFileDownloadTime` rewrites exactly one key of the loaded
cache map (the resolved absolute path, set to the current time) and writes
every other entry back unchanged. -/
theorem updateFileDownloadTime_frame (absOf : String → Option String) (now : ℤ)
    (loaded : String → Option ℤ) (filePath absPath : String)
    (h : absOf filePath = some absPath) :
    ∃ saved, UpdateFileDownloadTime absOf now loaded filePath = some saved ∧
      saved absPath = some now ∧ ∀ q, q ≠ absPath → saved q = loaded q := by
  refine ⟨fun p => if p = absPath then some now else loaded p, ?_, by simp, ?_⟩
  · simp [UpdateFileDownloadTime, h]
  · intro q hq
    simp [hq]

theorem updateFileDownloadTime_frame_witness :
    ∃ saved,
      UpdateFileDownloadTime (fun _ => some ("/home/a/f.bin")) 5
          (fun p => if p = "/other" then some 1 else none) ("f.bin") = some saved ∧
      saved "/home/a/f.bin" = some 5 ∧
      ∀ q, q ≠ "/home/a/f.bin" →
        saved q = (fun p => if p = "/other" then some 1 else none) q :=
  updateFileDownloadTime_frame (fun _ => some ("/home/a/f.bin")) 5
    (fun p => if p = "/other" then some 1 else none) ("f.bin") ("/home/a/f.bin") rfl

/-- Claim C1 (failing input): on a 404 response the code returns the
structured resource-not-found error, but — because the cleanup `defer` is
registered only after the status check — the already-created temporary file
is left on disk, contradicting the claimed unconditional cleanup. -/
theorem downloadFile_404_leaves_temp_file :
    DownloadFile false
      { mkdirOk := true, tempCreateOk := true, reqOk := true, respStatus := some 404,
        lowSpeedCancel := false, copyFails := false, closeOk := true, destExists := false,
        oldExists := false, removeOldOk := true, renameToOldOk := true, removeDestOk := true,
        renameTempOk := true } =
      { err := some (GoError.downloadErr (some 404) ErrResourceNotFound),
        tempCreated := true, tempLeft := true, destNew := false } := by
  decide

/-- Claim C7 (counterexample): at smoothed speed 0.0001 bytes/s the code
computes no ETA at all — the progress line shows the speed with an unknown
remaining time — rather than an ETA capped at 86400 seconds. -/
theorem eta_low_speed_no_eta_ce :
    etaOf 1000000000 0 (1 / 10000) = none ∧
    etaOf 1000000000 0 (1 / 10000) ≠ some 86400 := by
  have h : etaOf 1000000000 0 (1 / 10000) = none := by
    norm_num [etaOf, displayKnownSizeProgress, MinValidSpeed]
  exact ⟨h, by rw [h]; simp⟩

/-- Claim C7 (amended): the 1000/500/100 example gives an ETA of exactly 5
seconds; an ETA is computed only when the smoothed speed exceeds
`MinValidSpeed` (10 bytes/s); every computed ETA is at most 86400 seconds;
and a huge remaining size at a valid speed is capped at exactly 86400. -/
theorem eta_computation_and_cap :
    etaOf 1000 500 100 = some 5 ∧
    (∀ (fs cs : ℤ) (sp : ℚ), sp ≤ MinValidSpeed → etaOf fs cs sp = none) ∧
    (∀ (fs cs : ℤ) (sp v : ℚ), etaOf fs cs sp = some v → v ≤ 86400) ∧
    etaOf 1000000000 0 11 = some 86400 := by
  refine ⟨by norm_num [etaOf, displayKnownSizeProgress, MinValidSpeed], ?_, ?_,
    by norm_num [etaOf, displayKnownSizeProgress, MinValidSpeed]⟩
  · intro fs cs sp h
    have h1 : ¬ MinValidSpeed < sp := not_lt.mpr h
    by_cases h2 : 0 < sp <;> simp [etaOf, displayKnownSizeProgress, h1, h2]
  · intro fs cs sp v h
    by_cases h1 : MinValidSpeed < sp
    · simp only [etaOf, displayKnownSizeProgress, if_pos h1] at h
      by_cases h2 : 86400 < ((fs - cs : ℤ) : ℚ) / sp
      · rw [if_pos h2] at h
        simp only [Option.some.injEq] at h
        linarith [h.symm.le]
      · rw [if_neg h2] at h
        simp only [Option.some.injEq] at h
        rw [← h]
        exact not_lt.mp h2
    · by_cases h2 : 0 < sp <;> simp [etaOf, displayKnownSizeProgress, h1, h2] at h

theorem eta_computation_and_cap_witness :
    etaOf 1000 0 5 = none ∧ (5 : ℚ) ≤ 86400 :=
  ⟨eta_computation_and_cap.2.1 1000 0 5 (by norm_num [MinValidSpeed]),
   eta_computation_and_cap.2.2.1 1000 500 100 5 eta_computation_and_cap.1⟩

lemma runUpdates_nonneg_aux (samples : List (ℚ × ℤ)) :
    ∀ pt : ProgressTracker, 0 ≤ pt.speed →
      (∀ p ∈ samples, pt.lastSize ≤ p.2) →
      List.Pairwise (fun a b : ℚ × ℤ => a.2 ≤ b.2) samples →
      0 ≤ (runUpdates pt samples).speed := by
  induction samples with
  | nil =>
    intro pt h _ _
    simpa [runUpdates] using h
  | cons p ps ih =>
    intro pt hspeed hge hpair
    have hstep : runUpdates pt (p :: ps) = runUpdates (updateSpeed pt p.1 p.2) ps := rfl
    rw [hstep]
    rw [List.pairwise_cons] at hpair
    by_cases helapsed : 0 < p.1 - pt.lastUpdate
    · have hinst : (0 : ℚ) ≤ ((p.2 - pt.lastSize : ℤ) : ℚ) / (p.1 - pt.lastUpdate) := by
        apply div_nonneg
        · exact_mod_cast sub_nonneg.mpr (hge p (by simp))
        · exact le_of_lt helapsed
      have hnew : 0 ≤ (updateSpeed pt p.1 p.2).speed := by
        simp only [updateSpeed, if_pos helapsed]
        by_cases hz : pt.speed = 0
        · simpa [hz] using hinst
        · simp only [if_neg hz]
          have : (0 : ℚ) ≤ (7 / 10) * pt.speed := by positivity
          have h2 : (0 : ℚ) ≤ (3 / 10) * (((p.2 - pt.lastSize : ℤ) : ℚ) / (p.1 - pt.lastUpdate)) := by
            have : (0 : ℚ) ≤ (3 / 10 : ℚ) := by norm_num
            exact mul_nonneg this hinst
          linarith
      have hsize : ∀ q ∈ ps, (updateSpeed pt p.1 p.2).lastSize ≤ q.2 := by
        intro q hq
        simp only [updateSpeed, if_pos helapsed]
        exact hpair.1 q hq
      exact ih _ hnew hsize hpair.2
    · have hskip : updateSpeed pt p.1 p.2 = pt := by
        simp [updateSpeed, helapsed]
      rw [hskip]
      exact ih pt hspeed (fun q hq => hge q (by simp [hq])) hpair.2

/-- Claim C8: starting from a fresh tracker, for every sequence of samples
with non-negative, non-decreasing byte counts taken at strictly increasing
timestamps, the smoothed speed after the run is never negative. -/
theorem smoothedSpeed_nonneg (startTime : ℚ) (samples : List (ℚ × ℤ))
    (hsize0 : ∀ p ∈ samples, 0 ≤ p.2)
    (hmono : List.Pairwise (fun a b : ℚ × ℤ => a.2 ≤ b.2) samples)
    (htimes : List.Chain (fun a b : ℚ × ℤ => a.1 < b.1) (startTime, 0) samples) :
    0 ≤ (runUpdates (NewProgressTracker startTime) samples).speed :=
  runUpdates_nonneg_aux samples (NewProgressTracker startTime) le_rfl hsize0 hmono

theorem smoothedSpeed_nonneg_witness :
    0 ≤ (runUpdates (NewProgressTracker 0) [(1, 5), (2, 7)]).speed :=
  smoothedSpeed_nonneg 0 [(1, 5), (2, 7)]
    (by decide)
    (by decide)
    (List.Chain.cons (by decide) (List.Chain.cons (by decide) List.Chain.nil))

lemma monitorSpeed_count_le (speeds : List ℚ) :
    ∀ st : MonitorState, (MonitorSpeed st speeds).cancelCount ≤ st.cancelCount + 1 := by
  induction speeds with
  | nil => intro st; simp [MonitorSpeed]
  | cons s rest ih =>
    intro st
    by_cases h : s < MinRequiredSpeed
    · simp only [MonitorSpeed, if_pos h]
      by_cases h2 : LowSpeedDuration ≤ (st.lowSpeedCount + 1) * SpeedCheckInterval
      · simp [h2]
      · simpa [h2] using ih _
    · simpa [MonitorSpeed, h] using ih _

lemma monitorSpeed_no_cancel_short (speeds : List ℚ) :
    ∀ st : MonitorState, st.lowSpeedCount + speeds.length < 3 →
      (MonitorSpeed st speeds).cancelCount = st.cancelCount := by
  induction speeds with
  | nil => intro st _; simp [MonitorSpeed]
  | cons s rest ih =>
    intro st hlen
    by_cases h : s < MinRequiredSpeed
    · have h2 : ¬ LowSpeedDuration ≤ (st.lowSpeedCount + 1) * SpeedCheckInterval := by
        simp only [LowSpeedDuration, SpeedCheckInterval]
        simp only [List.length_cons] at hlen
        omega
      simp only [MonitorSpeed, if_pos h]
      rw [if_neg (by simpa using h2)]
      have := ih { st with lowSpeedCount := st.lowSpeedCount + 1 }
      simp only [List.length_cons] at hlen
      simpa using this (by simpa using (by omega : st.lowSpeedCount + 1 + rest.length < 3))
    · simp only [MonitorSpeed, if_neg h]
      have := ih { st with lowSpeedCount := 0 }
      simp only [List.length_cons] at hlen
      simpa using this (by simpa using (by omega : 0 + rest.length < 3))

lemma monitorSpeed_all_low_fires (a b c : ℚ) (rest : List ℚ)
    (ha : a < MinRequiredSpeed) (hb : b < MinRequiredSpeed) (hc : c < MinRequiredSpeed) :
    MonitorSpeed monitorInit (a :: b :: c :: rest) =
      { lowSpeedCount := 3, cancelReason := ErrLowSpeed, cancelCount := 1 } := by
  norm_num [MonitorSpeed, monitorInit, ha, hb, hc, LowSpeedDuration, SpeedCheckInterval]

/-- Claim C3: if the sampled speed stays below `MinRequiredSpeed` for enough
consecutive watchdog ticks that streak × interval reaches `LowSpeedDuration`
(15 s at the 5 s cadence), the watchdog stores the low-speed cancel reason
and fires the cancellation exactly once, then stops: further ticks are never
processed.  Cancellation never fires before the cumulative low-speed duration is
reached, and no run ever fires it more than once. -/
theorem monitorSpeed_low_speed_cancels_exactly_once
    (speeds extra : List ℚ)
    (hlow : ∀ s ∈ speeds, s < MinRequiredSpeed)
    (hlen : LowSpeedDuration ≤ speeds.length * SpeedCheckInterval) :
    (MonitorSpeed monitorInit (speeds ++ extra)).cancelCount = 1 ∧
    (MonitorSpeed monitorInit (speeds ++ extra)).cancelReason = ErrLowSpeed ∧
    MonitorSpeed monitorInit (speeds ++ extra) = MonitorSpeed monitorInit speeds ∧
    (∀ pre : List ℚ, pre.length * SpeedCheckInterval < LowSpeedDuration →
      (MonitorSpeed monitorInit pre).cancelCount = 0) ∧
    (∀ any : List ℚ, (MonitorSpeed monitorInit any).cancelCount ≤ 1) := by
  have hlen3 : 3 ≤ speeds.length := by
    simp only [LowSpeedDuration, SpeedCheckInterval] at hlen
    omega
  rcases speeds with _ | ⟨a, _ | ⟨b, _ | ⟨c, rest⟩⟩⟩
  · simp at hlen3
  · simp at hlen3
  · simp at hlen3
  · have ha : a < MinRequiredSpeed := hlow a (by simp)
    have hb : b < MinRequiredSpeed := hlow b (by simp)
    have hc : c < MinRequiredSpeed := hlow c (by simp)
    have h1 : MonitorSpeed monitorInit (a :: b :: c :: rest) =
        { lowSpeedCount := 3, cancelReason := ErrLowSpeed, cancelCount := 1 } :=
      monitorSpeed_all_low_fires a b c rest ha hb hc
    have h2 : MonitorSpeed monitorInit ((a :: b :: c :: rest) ++ extra) =
        { lowSpeedCount := 3, cancelReason := ErrLowSpeed, cancelCount := 1 } := by
      simpa using monitorSpeed_all_low_fires a b c (rest ++ extra) ha hb hc
    refine ⟨by rw [h2], by rw [h2], by rw [h1, h2], ?_, ?_⟩
    · intro pre hpre
      apply monitorSpeed_no_cancel_short
      simp only [monitorInit]
      simp only [LowSpeedDuration, SpeedCheckInterval] at hpre
      omega
    · intro any
      simpa [monitorInit] using monitorSpeed_count_le any monitorInit

theorem monitorSpeed_low_speed_witness :
    (MonitorSpeed monitorInit ([1023, 0, 5] ++ [99999])).cancelCount = 1 ∧
    (MonitorSpeed monitorInit ([1023, 0, 5] ++ [99999])).cancelReason = ErrLowSpeed ∧
    MonitorSpeed monitorInit ([1023, 0, 5] ++ [99999]) = MonitorSpeed monitorInit [1023, 0, 5] := by
  have h := monitorSpeed_low_speed_cancels_exactly_once [1023, 0, 5] [99999]
    (by intro s hs; fin_cases hs <;> norm_num [MinRequiredSpeed])
    (by norm_num [LowSpeedDuration, SpeedCheckInterval])
  exact ⟨h.1, h.2.1, h.2.2.1⟩

lemma updateSpeed_spec_sim (samples : List (ℚ × ℤ)) :
    ∀ (pt : ProgressTracker) (sp : SpecTracker),
      pt.lastUpdate = sp.lastUpdate → pt.lastSize = sp.lastSize → pt.speed = sp.speed →
      (sp.seeded = false → pt.speed = 0) → (sp.seeded = true → 0 < pt.speed) →
      List.Chain (fun a b : ℚ × ℤ => a.1 < b.1 ∧ a.2 < b.2) (pt.lastUpdate, pt.lastSize) samples →
      (runUpdates pt samples).speed = (specRunUpdates sp samples).speed := by
  induction samples with
  | nil =>
    intro pt sp _ _ h3 _ _ _
    simpa [runUpdates, specRunUpdates] using h3
  | cons q qs ih =>
    intro pt sp h1 h2 h3 hsf hst hchain
    have hr : pt.lastUpdate < q.1 ∧ pt.lastSize < q.2 := by
      cases hchain with
      | cons hr _ => exact hr
    have hrest : List.Chain (fun a b : ℚ × ℤ => a.1 < b.1 ∧ a.2 < b.2) q qs := by
      cases hchain with
      | cons _ hrest => exact hrest
    have he : 0 < q.1 - pt.lastUpdate := sub_pos.mpr hr.1
    have he' : 0 < q.1 - sp.lastUpdate := by rw [← h1]; exact he
    have hinstpos : 0 < ((q.2 - pt.lastSize : ℤ) : ℚ) / (q.1 - pt.lastUpdate) := by
      apply div_pos
      · exact_mod_cast sub_pos.mpr hr.2
      · exact he
    have hktr : runUpdates pt (q :: qs) = runUpdates (updateSpeed pt q.1 q.2) qs := rfl
    have hstr : specRunUpdates sp (q :: qs) = specRunUpdates (specUpdateSpeed sp q.1 q.2) qs := rfl
    rw [hktr, hstr]
    have hinsteq : ((q.2 - sp.lastSize : ℤ) : ℚ) / (q.1 - sp.lastUpdate) =
        ((q.2 - pt.lastSize : ℤ) : ℚ) / (q.1 - pt.lastUpdate) := by rw [h1, h2]
    have hinsteq2 : ((q.2 : ℚ) - (sp.lastSize : ℚ)) / (q.1 - sp.lastUpdate) =
        ((q.2 : ℚ) - (pt.lastSize : ℚ)) / (q.1 - pt.lastUpdate) := by rw [h1, h2]
    cases hsd : sp.seeded with
    | false =>
      have hz : pt.speed = 0 := hsf hsd
      have hcu : updateSpeed pt q.1 q.2 =
          { lastUpdate := q.1, lastSize := q.2,
            speed := ((q.2 - pt.lastSize : ℤ) : ℚ) / (q.1 - pt.lastUpdate) } := by
        simp [updateSpeed, he, hz]
      have hsu : specUpdateSpeed sp q.1 q.2 =
          { lastUpdate := q.1, lastSize := q.2,
            speed := ((q.2 - pt.lastSize : ℤ) : ℚ) / (q.1 - pt.lastUpdate), seeded := true } := by
        simp [specUpdateSpeed, he', hsd, hinsteq, hinsteq2]
      apply ih
      · rw [hcu, hsu]
      · rw [hcu, hsu]
      · rw [hcu, hsu]
      · intro hcontra
        rw [hsu] at hcontra
        simp at hcontra
      · intro _
        rw [hcu]
        exact hinstpos
      · rw [hcu]
        simpa using hrest
    | true =>
      have hpos : 0 < pt.speed := hst hsd
      have hz : pt.speed ≠ 0 := ne_of_gt hpos
      have hcu : updateSpeed pt q.1 q.2 =
          { lastUpdate := q.1, lastSize := q.2,
            speed := (7 / 10) * pt.speed +
              (3 / 10) * (((q.2 - pt.lastSize : ℤ) : ℚ) / (q.1 - pt.lastUpdate)) } := by
        simp [updateSpeed, he, hz]
      have hsu : specUpdateSpeed sp q.1 q.2 =
          { lastUpdate := q.1, lastSize := q.2,
            speed := (7 / 10) * pt.speed +
              (3 / 10) * (((q.2 - pt.lastSize : ℤ) : ℚ) / (q.1 - pt.lastUpdate)),
            seeded := true } := by
        simp [specUpdateSpeed, he', hsd, hinsteq, hinsteq2, h3]
      apply ih
      · rw [hcu, hsu]
      · rw [hcu, hsu]
      · rw [hcu, hsu]
      · intro hcontra
        rw [hsu] at hcontra
        simp at hcontra
      · intro _
        rw [hcu]
        have ha : (0 : ℚ) < (7 / 10) * pt.speed := by positivity
        have hb : (0 : ℚ) < (3 / 10) * (((q.2 - pt.lastSize : ℤ) : ℚ) / (q.1 - pt.lastUpdate)) := by
          have h310 : (0 : ℚ) < 3 / 10 := by norm_num
          exact mul_pos h310 hinstpos
        show 0 < (7 / 10) * pt.speed +
          (3 / 10) * (((q.2 - pt.lastSize : ℤ) : ℚ) / (q.1 - pt.lastUpdate))
        linarith
      · rw [hcu]
        simpa using hrest

/-- Claim C6 (counterexample): with a first sample of zero instantaneous
speed (no bytes in the first interval) and a second sample at 100 bytes/s,
the code re-seeds the average to 100 because its seeding test is
`speed == 0`, whereas the seed-once EWMA of the spec yields
0.7·0 + 0.3·100 = 30. -/
theorem updateSpeed_reseed_ce :
    (runUpdates (NewProgressTracker 0) [(1, 0), (2, 100)]).speed = 100 ∧
    (specRunUpdates (specNewTracker 0) [(1, 0), (2, 100)]).speed = 30 ∧
    (100 : ℚ) ≠ 30 := by
  refine ⟨?_, ?_, by norm_num⟩
  · norm_num [runUpdates, NewProgressTracker, updateSpeed]
  · norm_num [specRunUpdates, specNewTracker, specUpdateSpeed]

/-- Claim C6 (amended): a sample with non-positive elapsed time is skipped;
a sample with positive elapsed time re-seeds the smoothed speed with the
instantaneous speed whenever the stored smoothed value is zero — which
includes, but is not limited to, the first sample — and otherwise updates it
to exactly 0.7·old + 0.3·instant.  Consequently, on any run whose samples
have strictly increasing timestamps and strictly increasing byte counts
(all instantaneous speeds positive), only the first sample seeds the
average and the code agrees with the spec's seed-once EWMA. -/
theorem updateSpeed_ewma_characterization :
    (∀ (pt : ProgressTracker) (now : ℚ) (size : ℤ),
        now - pt.lastUpdate ≤ 0 → updateSpeed pt now size = pt) ∧
    (∀ (pt : ProgressTracker) (now : ℚ) (size : ℤ), 0 < now - pt.lastUpdate → pt.speed = 0 →
        (updateSpeed pt now size).speed = ((size - pt.lastSize : ℤ) : ℚ) / (now - pt.lastUpdate)) ∧
    (∀ (pt : ProgressTracker) (now : ℚ) (size : ℤ), 0 < now - pt.lastUpdate → pt.speed ≠ 0 →
        (updateSpeed pt now size).speed =
          (7 / 10) * pt.speed +
            (3 / 10) * (((size - pt.lastSize : ℤ) : ℚ) / (now - pt.lastUpdate))) ∧
    (∀ (startTime : ℚ) (samples : List (ℚ × ℤ)),
        List.Chain (fun a b : ℚ × ℤ => a.1 < b.1 ∧ a.2 < b.2) (startTime, 0) samples →
        (runUpdates (NewProgressTracker startTime) samples).speed =
          (specRunUpdates (specNewTracker startTime) samples).speed) := by
  refine ⟨?_, ?_, ?_, ?_⟩
  · intro pt now size h
    have h1 : ¬ 0 < now - pt.lastUpdate := not_lt.mpr h
    simp [updateSpeed, h1]
  · intro pt now size h hz
    simp [updateSpeed, h, hz]
  · intro pt now size h hz
    simp [updateSpeed, h, hz]
  · intro t samples hchain
    exact updateSpeed_spec_sim samples (NewProgressTracker t) (specNewTracker t) rfl rfl rfl
      (fun _ => rfl) (fun h => by simp [specNewTracker] at h) hchain

/-- Claim C2: each iteration of the cancellable copy loop first polls
cancellation and stops at once with the cancellation error when signalled;
otherwise it consumes one read: on end-of-stream with no bytes it reports
success; a pending read error with no bytes is reported as-is; bytes read
are written through the counting writer, whose reported write error is
fatal, a short write is reported as `shortWrite`, and after a full write the
read's own end-of-stream/error/continue outcome is handled as in the
source. -/
theorem copyBufferWithContext_iteration_spec
    (cancelAfter : Option Nat) (i : Nat) (written : ℤ)
    (r : ReadRes) (rs : List ReadRes) (w : WriteRes) (ws : List WriteRes) :
    (∀ (reads : List ReadRes) (writes : List WriteRes), ctxDoneAt cancelAfter i = true →
        copyBufferWithContext cancelAfter reads writes i written =
          some (written, some CopyError.ctxCancelled)) ∧
    (ctxDoneAt cancelAfter i = false → r.nr = 0 → r.er = some ReadErr.eof →
        ∀ writes, copyBufferWithContext cancelAfter (r :: rs) writes i written =
          some (written, none)) ∧
    (ctxDoneAt cancelAfter i = false → r.nr = 0 → r.er = none →
        ∀ writes, copyBufferWithContext cancelAfter (r :: rs) writes i written =
          copyBufferWithContext cancelAfter rs writes (i + 1) written) ∧
    (∀ c, ctxDoneAt cancelAfter i = false → r.nr = 0 → r.er = some (ReadErr.failure c) →
        ∀ writes, copyBufferWithContext cancelAfter (r :: rs) writes i written =
          some (written, some (CopyError.readFailed c))) ∧
    (∀ c, ctxDoneAt cancelAfter i = false → 0 < r.nr → w.ew = some c →
        copyBufferWithContext cancelAfter (r :: rs) (w :: ws) i written =
          some ((if 0 < w.nw then written + (w.nw : ℤ) else written),
            some (CopyError.writeFailed c))) ∧
    (ctxDoneAt cancelAfter i = false → 0 < r.nr → w.ew = none → r.nr ≠ w.nw →
        copyBufferWithContext cancelAfter (r :: rs) (w :: ws) i written =
          some ((if 0 < w.nw then written + (w.nw : ℤ) else written),
            some CopyError.shortWrite)) ∧
    (ctxDoneAt cancelAfter i = false → 0 < r.nr → w.ew = none → r.nr = w.nw →
        r.er = some ReadErr.eof →
        copyBufferWithContext cancelAfter (r :: rs) (w :: ws) i written =
          some (written + (w.nw : ℤ), none)) ∧
    (ctxDoneAt cancelAfter i = false → 0 < r.nr → w.ew = none → r.nr = w.nw → r.er = none →
        copyBufferWithContext cancelAfter (r :: rs) (w :: ws) i written =
          copyBufferWithContext cancelAfter rs ws (i + 1) (written + (w.nw : ℤ))) ∧
    (∀ c, ctxDoneAt cancelAfter i = false → 0 < r.nr → w.ew = none → r.nr = w.nw →
        r.er = some (ReadErr.failure c) →
        copyBufferWithContext cancelAfter (r :: rs) (w :: ws) i written =
          some (written + (w.nw : ℤ), some (CopyError.readFailed c))) := by
  refine ⟨?_, ?_, ?_, ?_, ?_, ?_, ?_, ?_, ?_⟩
  · intro reads writes h
    rw [copyBufferWithContext.eq_def]
    simp [h]
  · intro h h0 her writes
    rw [copyBufferWithContext.eq_def]
    simp [h, h0, her]
  · intro h h0 her writes
    rw [copyBufferWithContext.eq_def]
    simp [h, h0, her]
  · intro c h h0 her writes
    rw [copyBufferWithContext.eq_def]
    simp [h, h0, her]
  · intro c h hnr hew
    rw [copyBufferWithContext.eq_def]
    simp [h, hnr, hew]
  · intro h hnr hew hne
    rw [copyBufferWithContext.eq_def]
    simp [h, hnr, hew, hne]
  · intro h hnr hew heq her
    have h5 : 0 < w.nw := heq ▸ hnr
    rw [copyBufferWithContext.eq_def]
    simp [h, hnr, hew, heq, her, h5]
  · intro h hnr hew heq her
    have h5 : 0 < w.nw := heq ▸ hnr
    rw [copyBufferWithContext.eq_def]
    simp [h, hnr, hew, heq, her, h5]
  · intro c h hnr hew heq her
    have h5 : 0 < w.nw := heq ▸ hnr
    rw [copyBufferWithContext.eq_def]
    simp [h, hnr, hew, heq, her, h5]

theorem copyBufferWithContext_iteration_witness :
    copyBufferWithContext (some 0) [] [] 0 0 = some (0, some CopyError.ctxCancelled) ∧
    copyBufferWithContext none [⟨0, some ReadErr.eof⟩] [] 0 7 = some (7, none) ∧
    copyBufferWithContext none [⟨3, none⟩, ⟨0, some ReadErr.eof⟩] [⟨2, none⟩] 0 0 =
      some (2, some CopyError.shortWrite) := by
  have h := copyBufferWithContext_iteration_spec (some 0) 0 0 ⟨0, none⟩ [] ⟨0, none⟩ []
  have h2 := copyBufferWithContext_iteration_spec none 0 7 ⟨0, some ReadErr.eof⟩ [] ⟨0, none⟩ []
  have h3 := copyBufferWithContext_iteration_spec none 0 0 ⟨3, none⟩ [⟨0, some ReadErr.eof⟩]
    ⟨2, none⟩ []
  refine ⟨h.1 [] [] rfl, h2.2.1 rfl rfl rfl [], ?_⟩
  have := h3.2.2.2.2.2.1 rfl (by decide) rfl (by decide)
  simpa using this

/-- Claim C5 (counterexample): with two configured URLs where the first
answers 404 and the second would succeed, the orchestrator's URL loop stops
at the first URL — the second URL is never attempted — so a
resource-not-found result does not fall through to the item's remaining
URLs. -/
theorem processDownItems_notFound_skips_remaining_urls_ce :
    (ProcessDownItemURLs dlTwoUrls ["u1".toList, "u2".toList] 3).1 = false ∧
    (ProcessDownItemURLs dlTwoUrls ["u1".toList, "u2".toList] 3).2.1 = true ∧
    (ProcessDownItemURLs dlTwoUrls ["u1".toList, "u2".toList] 3).2.2 = [("u1".toList, 1)] ∧
    (∀ p ∈ (ProcessDownItemURLs dlTwoUrls ["u1".toList, "u2".toList] 3).2.2,
      p.1 ≠ "u2".toList) ∧
    dlTwoUrls ("u2".toList) 1 = AttemptOutcome.ok := by
  refine ⟨by decide, by decide, by decide, by decide, by decide⟩

/-- Claim C5 (amended): `DownloadFile` returns the structured
resource-not-found error exactly when the setup steps succeed and the HTTP
status is 404; on such an error the retry loop makes no further attempt for
that URL, and the orchestrator stops the whole item — the remaining
configured URLs are not attempted either. -/
theorem downloadFile_404_classification_and_orchestrator_stop :
    (∀ (k : Bool) (e : DlEnv), isResourceNotFound (DownloadFile k e).err = true ↔
        (e.mkdirOk = true ∧ e.tempCreateOk = true ∧ e.reqOk = true ∧
          e.respStatus = some 404)) ∧
    (∀ (dl : Nat → AttemptOutcome) (retries : Nat), 0 < retries →
        dl 1 = AttemptOutcome.notFound → tryDownloadURL dl retries = (false, true, [1])) ∧
    (∀ (dl : List Char → Nat → AttemptOutcome) (u : List Char) (rest : List (List Char))
        (retries : Nat) (log : List Nat),
        tryDownloadURL (dl (effectiveURL u)) retries = (false, true, log) →
        ProcessDownItemURLs dl (u :: rest) retries =
          (false, true, log.map (fun a => (effectiveURL u, a)))) := by
  refine ⟨?_, ?_, ?_⟩
  · intro k e
    obtain ⟨mk, tc, rq, rs, ls, cf, co, de, oe, ro, rno, rd, rt⟩ := e
    simp only [DownloadFile]
    cases mk <;> cases tc <;> cases rq <;>
      try simp [isResourceNotFound]
    cases rs with
    | none => simp [isResourceNotFound]
    | some status =>
      by_cases h404 : status = 404
      · simp [h404, isResourceNotFound]
      · simp only [h404, if_false]
        have hrhs : (some status = some 404) = False := by
          simp [h404]
        rw [hrhs]
        simp only [iff_false, and_false]
        by_cases h200 : status = 200
        · simp only [h200, ne_eq, not_true_eq_false, if_false]
          simp only [h200] at *
          split_ifs <;> simp_all [isResourceNotFound, finishRename, ErrLowSpeed,
            ErrResourceNotFound] <;> split_ifs <;> simp [isResourceNotFound]
        · have : status ≠ 200 := h200
          simp [this, isResourceNotFound]
  · intro dl retries hpos h1
    cases retries with
    | zero => omega
    | succ n => simp [tryDownloadURL, tryFromAttempt, h1]
  · intro dl u rest retries log h
    simp only [ProcessDownItemURLs, h]
    simp

theorem downloadFile_404_classification_witness :
    tryDownloadURL (fun _ => AttemptOutcome.notFound) 3 = (false, true, [1]) ∧
    ProcessDownItemURLs (fun _ _ => AttemptOutcome.notFound) ["u1".toList, "u2".toList] 3 =
      (false, true, [(effectiveURL ("u1".toList), 1)]) := by
  refine ⟨downloadFile_404_classification_and_orchestrator_stop.2.1 _ 3 (by decide) rfl, ?_⟩
  have := downloadFile_404_classification_and_orchestrator_stop.2.2
    (fun _ _ => AttemptOutcome.notFound) ("u1".toList) ["u2".toList] 3 [1] (by decide)
  simpa using this

/-! ## String lemmas for `ConvertGitHubURL` -/

lemma isPrefixOf_iff (a b : List Char) : a.isPrefixOf b = true ↔ ∃ t, a ++ t = b := by
  induction a generalizing b with
  | nil => simp [List.isPrefixOf]
  | cons x xs ih =>
    cases b with
    | nil => simp [List.isPrefixOf]
    | cons y ys =>
      simp only [List.isPrefixOf, Bool.and_eq_true, beq_iff_eq, ih]
      constructor
      · rintro ⟨hxy, t, ht⟩
        exact ⟨t, by simp [hxy, ht]⟩
      · rintro ⟨t, ht⟩
        simp only [List.cons_append, List.cons.injEq] at ht
        exact ⟨ht.1, t, ht.2⟩

lemma strContains_iff (s q : List Char) : strContains s q = true ↔ OccursIn q s := by
  induction s with
  | nil =>
    simp only [strContains, OccursIn, List.isEmpty_iff]
    constructor
    · intro h
      exact ⟨[], [], by simp [h]⟩
    · rintro ⟨X, Y, hXY⟩
      have := hXY.symm
      simp only [List.append_eq_nil] at this
      exact this.1.2
  | cons c rest ih =>
    simp only [strContains, Bool.or_eq_true, ih, isPrefixOf_iff, OccursIn]
    constructor
    · rintro (⟨t, ht⟩ | ⟨X, Y, hXY⟩)
      · exact ⟨[], t, by simp [ht]⟩
      · exact ⟨c :: X, Y, by simp [hXY]⟩
    · rintro ⟨X, Y, hXY⟩
      cases X with
      | nil =>
        left
        exact ⟨Y, by simpa using hXY.symm⟩
      | cons x xs =>
        right
        simp only [List.cons_append, List.cons.injEq, List.append_assoc] at hXY
        exact ⟨xs, Y, by simp [hXY.2]⟩

lemma countOcc_cons_ge (c : Char) (rest q : List Char) :
    countOcc rest q ≤ countOcc (c :: rest) q := by
  rw [show countOcc (c :: rest) q =
    (if q.isPrefixOf (c :: rest) then 1 else 0) + countOcc rest q from rfl]
  split <;> omega

lemma countOcc_append_ge (A s q : List Char) : countOcc s q ≤ countOcc (A ++ s) q := by
  induction A with
  | nil => simp
  | cons c cs ih =>
    have h2 := countOcc_cons_ge c (cs ++ s) q
    simp only [List.cons_append]
    omega

lemma countOcc_head_one (q t : List Char) (hq : q ≠ []) : 1 ≤ countOcc (q ++ t) q := by
  cases q with
  | nil => exact absurd rfl hq
  | cons x xs =>
    have hpre : (x :: xs).isPrefixOf ((x :: xs) ++ t) = true :=
      (isPrefixOf_iff _ _).mpr ⟨t, rfl⟩
    rw [show countOcc ((x :: xs) ++ t) (x :: xs) =
      (if (x :: xs).isPrefixOf (x :: (xs ++ t)) then 1 else 0) + countOcc (xs ++ t) (x :: xs)
      from rfl]
    rw [if_pos (by simpa using hpre)]
    omega

lemma countOcc_pos_occursIn (s q : List Char) (h : 1 ≤ countOcc s q) : OccursIn q s := by
  induction s with
  | nil =>
    by_cases hq : q.isEmpty = true
    · exact ⟨[], [], by simp [List.isEmpty_iff.mp hq]⟩
    · rw [show countOcc [] q = if q.isEmpty then 1 else 0 from rfl, if_neg hq] at h
      omega
  | cons c rest ih =>
    by_cases hp : q.isPrefixOf (c :: rest) = true
    · obtain ⟨t, ht⟩ := (isPrefixOf_iff _ _).mp hp
      exact ⟨[], t, by simp [ht.symm]⟩
    · rw [show countOcc (c :: rest) q =
        (if q.isPrefixOf (c :: rest) then 1 else 0) + countOcc rest q from rfl,
        if_neg hp] at h
      obtain ⟨X, Y, hXY⟩ := ih (by omega)
      exact ⟨c :: X, Y, by simp [hXY]⟩

lemma two_decomps_two_occ (q X Y X' Y' : List Char) (hq : q ≠ [])
    (hlt : X.length < X'.length) (heq : X ++ q ++ Y = X' ++ q ++ Y') :
    2 ≤ countOcc (X ++ q ++ Y) q := by
  have heq' : X ++ (q ++ Y) = X' ++ (q ++ Y') := by simpa [List.append_assoc] using heq
  rcases List.append_eq_append_iff.mp heq' with ⟨D, hXD, hqY⟩ | ⟨D, hXD, _⟩
  · cases D with
    | nil =>
      rw [hXD] at hlt
      simp at hlt
    | cons dh dt =>
      cases q with
      | nil => exact absurd rfl hq
      | cons qh qt =>
        simp only [List.cons_append, List.cons.injEq] at hqY
        have hmid : qt ++ Y = dt ++ ((qh :: qt) ++ Y') := hqY.2
        have s1 : countOcc ((qh :: qt) ++ Y') (qh :: qt) ≥ 1 :=
          countOcc_head_one _ Y' (by simp)
        have s2 : countOcc (dt ++ ((qh :: qt) ++ Y')) (qh :: qt) ≥ 1 :=
          le_trans s1 (countOcc_append_ge dt _ _)
        have s3 : countOcc (qt ++ Y) (qh :: qt) ≥ 1 := by rw [hmid]; exact s2
        have hpre : (qh :: qt).isPrefixOf ((qh :: qt) ++ Y) = true :=
          (isPrefixOf_iff _ _).mpr ⟨Y, rfl⟩
        have s4 : countOcc ((qh :: qt) ++ Y) (qh :: qt) ≥ 2 := by
          rw [show countOcc ((qh :: qt) ++ Y) (qh :: qt) =
            (if (qh :: qt).isPrefixOf (qh :: (qt ++ Y)) then 1 else 0) +
              countOcc (qt ++ Y) (qh :: qt) from rfl]
          rw [if_pos (by simpa using hpre)]
          omega
        have s5 := countOcc_append_ge X ((qh :: qt) ++ Y) (qh :: qt)
        rw [List.append_assoc]
        omega
  · have := congrArg List.length hXD
    simp [List.length_append] at this
    omega

lemma ex_two_decomps (s q : List Char) (hq : q ≠ []) (h2 : 2 ≤ countOcc s q) :
    ∃ X Y X' Y', s = X ++ q ++ Y ∧ s = X' ++ q ++ Y' ∧ X.length < X'.length := by
  induction s with
  | nil =>
    rw [show countOcc [] q = if q.isEmpty then 1 else 0 from rfl,
      if_neg (by simpa [List.isEmpty_iff] using hq)] at h2
    omega
  | cons c rest ih =>
    have hsplit : countOcc (c :: rest) q =
        (if q.isPrefixOf (c :: rest) then 1 else 0) + countOcc rest q := rfl
    by_cases hp : q.isPrefixOf (c :: rest) = true
    · by_cases hr : 2 ≤ countOcc rest q
      · obtain ⟨X, Y, X', Y', h1, h1', hlt⟩ := ih hr
        exact ⟨c :: X, Y, c :: X', Y', by simp [h1], by simp [h1'],
          by simpa using Nat.succ_lt_succ hlt⟩
      · have h1' : 1 ≤ countOcc rest q := by
          rw [hsplit, if_pos hp] at h2
          omega
        obtain ⟨t, ht⟩ := (isPrefixOf_iff _ _).mp hp
        obtain ⟨X, Y, hXY⟩ := countOcc_pos_occursIn rest q h1'
        refine ⟨[], t, c :: X, Y, by simp [ht.symm], by simp [hXY], by simp⟩
    · rw [hsplit, if_neg hp] at h2
      obtain ⟨X, Y, X', Y', h1, h1', hlt⟩ := ih (by omega)
      exact ⟨c :: X, Y, c :: X', Y', by simp [h1], by simp [h1'],
        by simpa using Nat.succ_lt_succ hlt⟩

lemma unique_decomp (s q X Y X' Y' : List Char) (hq : q ≠ []) (hc : countOcc s q ≤ 1)
    (h1 : s = X ++ q ++ Y) (h2 : s = X' ++ q ++ Y') : X = X' := by
  rcases Nat.lt_trichotomy X.length X'.length with hlt | heq | hgt
  · exfalso
    have := two_decomps_two_occ q X Y X' Y' hq hlt (h1.symm.trans h2)
    rw [← h1] at this
    omega
  · exact (List.append_inj
      (by simpa [List.append_assoc] using h1.symm.trans h2) heq).1
  · exfalso
    have := two_decomps_two_occ q X' Y' X Y hq hgt (h2.symm.trans h1)
    rw [← h2] at this
    omega

lemma replaceFirst_id (s q rep : List Char) (h : strContains s q = false) :
    replaceFirst s q rep = s := by
  induction s with
  | nil =>
    simp only [strContains] at h
    simp [replaceFirst, h]
  | cons c rest ih =>
    simp only [strContains, Bool.or_eq_false_iff] at h
    simp [replaceFirst, h.1, ih h.2]

lemma replaceFirst_decomp (s q rep : List Char) (h : strContains s q = true) :
    ∃ X Y, s = X ++ q ++ Y ∧ replaceFirst s q rep = X ++ rep ++ Y := by
  induction s with
  | nil =>
    simp only [strContains, List.isEmpty_iff] at h
    exact ⟨[], [], by simp [h], by simp [replaceFirst, h]⟩
  | cons c rest ih =>
    by_cases hp : q.isPrefixOf (c :: rest) = true
    · obtain ⟨t, ht⟩ := (isPrefixOf_iff _ _).mp hp
      refine ⟨[], t, by simp [ht.symm], ?_⟩
      have hdrop : (c :: rest).drop q.length = t := by
        rw [← ht]
        exact List.drop_left q t
      simp [replaceFirst, hp, hdrop]
    · simp only [strContains, Bool.or_eq_true] at h
      rcases h with h | h
      · exact absurd h hp
      · obtain ⟨X, Y, hXY, hrep⟩ := ih h
        exact ⟨c :: X, Y, by simp [hXY], by simp [replaceFirst, hp, hrep]⟩

lemma endsWithB_iff (s pat : List Char) : endsWithB s pat = true ↔ ∃ t, t ++ pat = s := by
  rw [endsWithB, isPrefixOf_iff]
  constructor
  · rintro ⟨t, ht⟩
    refine ⟨t.reverse, ?_⟩
    have := congrArg List.reverse ht
    simpa [List.reverse_append] using this
  · rintro ⟨t, ht⟩
    refine ⟨t.reverse, ?_⟩
    have := congrArg List.reverse ht
    simpa [List.reverse_append] using this

lemma gh_ne_nil : githubHost ≠ [] := by decide

lemma blob_ne_nil : blobSeg ≠ [] := by decide

lemma raw_ne_nil : rawHost ≠ [] := by decide

lemma slash_ne_nil : slashSeg ≠ [] := by decide

lemma raw_no_gh : strContains rawHost githubHost = false := by decide

lemma raw_no_blob : strContains rawHost blobSeg = false := by decide

lemma gh_drop_not_pre_raw :
    ∀ k : Fin 10, 0 < (k : ℕ) → (githubHost.drop (k : ℕ)).isPrefixOf rawHost = false := by
  decide

lemma gh_take_not_suf_raw :
    ∀ k : Fin 11, 0 < (k : ℕ) → endsWithB rawHost (githubHost.take (k : ℕ)) = false := by
  decide

lemma blob_drop_not_pre_raw :
    ∀ k : Fin 6, 0 < (k : ℕ) → (blobSeg.drop (k : ℕ)).isPrefixOf rawHost = false := by
  decide

lemma blob_take_not_suf_raw :
    ∀ k : Fin 7, 0 < (k : ℕ) → endsWithB rawHost (blobSeg.take (k : ℕ)) = false := by
  decide

lemma slash_not_mem_gh : ¬ slashChar ∈ githubHost := by decide

lemma gh_headq : githubHost.head? ≠ some slashChar := by decide

lemma blob_drop_headq :
    ∀ k : Fin 7, 0 < (k : ℕ) → (blobSeg.drop (k : ℕ)).head? = some slashChar →
      (k : ℕ) = 5 := by
  decide

lemma blob_overlap : blobHead ++ blobSeg = blobSeg ++ blobTail := by decide

lemma blob_take5 : blobSeg.take 5 = blobHead := by decide

lemma blob_drop5 : blobSeg.drop 5 = [slashChar] := by decide

lemma blob_eq_cons : blobSeg = slashChar :: blobTail := by decide

lemma slash_eq : slashSeg = [slashChar] := by decide

lemma gh_len : githubHost.length = 10 := by decide

lemma raw_len : rawHost.length = 25 := by decide

lemma blob_len : blobSeg.length = 6 := by decide

lemma blobHead_len : blobHead.length = 5 := by decide

/-- Where an occurrence of `q` can sit inside `A ++ m ++ B`: wholly inside
`A`, wholly inside `B` (past `m`), spanning the `A`/`m` boundary, or starting
inside (or at the left edge of) `m`. -/
lemma occ_decomp_middle (X Y A m B q : List Char) (hm : m ≠ [])
    (h : X ++ q ++ Y = A ++ m ++ B) :
    (∃ Z, A = X ++ q ++ Z ∧ Y = Z ++ m ++ B) ∨
    (∃ W, X = A ++ m ++ W ∧ B = W ++ q ++ Y) ∨
    (∃ d f, d ≠ [] ∧ f ≠ [] ∧ q = d ++ f ∧ A = X ++ d ∧ f ++ Y = m ++ B) ∨
    (∃ cc ff, ff ≠ [] ∧ m = cc ++ ff ∧ X = A ++ cc ∧ q ++ Y = ff ++ B) := by
  have h' : X ++ (q ++ Y) = A ++ (m ++ B) := by simpa [List.append_assoc] using h
  rcases List.append_eq_append_iff.mp h' with ⟨d, hA, hqY⟩ | ⟨cc, hX, hmB⟩
  · rcases List.append_eq_append_iff.mp hqY with ⟨e, hd, hY⟩ | ⟨f, hq2, hmB2⟩
    · left
      exact ⟨e, by rw [hA, hd]; simp [List.append_assoc],
        by simpa [List.append_assoc] using hY⟩
    · by_cases hd0 : d = []
      · right; right; right
        refine ⟨[], m, hm, by simp, by simpa [hd0] using hA.symm, ?_⟩
        rw [hq2, hd0]
        simpa using hmB2.symm
      · by_cases hf0 : f = []
        · left
          refine ⟨[], ?_, ?_⟩
          · rw [hA, hq2, hf0]
            simp
          · simpa [hf0] using hmB2.symm
        · right; right; left
          exact ⟨d, f, hd0, hf0, hq2, hA, hmB2.symm⟩
  · rcases List.append_eq_append_iff.mp hmB with ⟨e, hcc, hB⟩ | ⟨ff, hm2, hqY2⟩
    · right; left
      exact ⟨e, by rw [hX, hcc]; simp [List.append_assoc],
        by simpa [List.append_assoc] using hB⟩
    · by_cases hff : ff = []
      · right; left
        refine ⟨[], ?_, ?_⟩
        · rw [hX, hm2, hff]
          simp
        · simpa [hff] using hqY2.symm
      · right; right; right
        exact ⟨cc, ff, hff, hm2, hX, hqY2⟩

lemma gh_pre_facts :
    ∀ k, 0 < k → k < githubHost.length → (githubHost.drop k).isPrefixOf rawHost = false := by
  intro k h1 h2
  rw [gh_len] at h2
  exact gh_drop_not_pre_raw ⟨k, by omega⟩ h1

lemma gh_take_facts :
    ∀ k, 0 < k → k ≤ githubHost.length → endsWithB rawHost (githubHost.take k) = false := by
  intro k h1 h2
  rw [gh_len] at h2
  exact gh_take_not_suf_raw ⟨k, by omega⟩ h1

lemma blob_pre_facts :
    ∀ k, 0 < k → k < blobSeg.length → (blobSeg.drop k).isPrefixOf rawHost = false := by
  intro k h1 h2
  rw [blob_len] at h2
  exact blob_drop_not_pre_raw ⟨k, by omega⟩ h1

lemma blob_take_facts :
    ∀ k, 0 < k → k ≤ blobSeg.length → endsWithB rawHost (blobSeg.take k) = false := by
  intro k h1 h2
  rw [blob_len] at h2
  exact blob_take_not_suf_raw ⟨k, by omega⟩ h1

/-- An occurrence of a short pattern `q` in `A ++ rawHost ++ B` can neither
lie inside the `rawHost` block nor span one of its edges, when the supplied
facts refute every prefix/suffix overlap; it is wholly inside `A` or wholly
inside `B`. -/
lemma raw_region_no_occ (q X Y A B : List Char)
    (hqnil : q ≠ []) (hqshort : q.length < rawHost.length)
    (hpre : ∀ k, 0 < k → k < q.length → (q.drop k).isPrefixOf rawHost = false)
    (hsuf : ∀ k, 0 < k → k ≤ q.length → endsWithB rawHost (q.take k) = false)
    (hin : strContains rawHost q = false)
    (h : X ++ q ++ Y = A ++ rawHost ++ B) :
    (∃ Z, A = X ++ q ++ Z ∧ Y = Z ++ rawHost ++ B) ∨
    (∃ W, X = A ++ rawHost ++ W ∧ B = W ++ q ++ Y) := by
  rcases occ_decomp_middle X Y A rawHost B q raw_ne_nil h with h1 | h2 | h3 | h4
  · exact Or.inl h1
  · exact Or.inr h2
  · exfalso
    obtain ⟨d, f, hd, hf, hq, hA, hfY⟩ := h3
    have hlq := congrArg List.length hq
    simp only [List.length_append] at hlq
    have hdlen : 0 < d.length := List.length_pos.mpr hd
    have hflen : 0 < f.length := List.length_pos.mpr hf
    have hfq : f = q.drop d.length := by
      rw [hq]
      exact (List.drop_left d f).symm
    rcases List.append_eq_append_iff.mp hfY with ⟨e, hre, _⟩ | ⟨e, hfe, _⟩
    · have hptrue : f.isPrefixOf rawHost = true := (isPrefixOf_iff _ _).mpr ⟨e, hre.symm⟩
      rw [hfq, hpre d.length hdlen (by omega)] at hptrue
      exact Bool.noConfusion hptrue
    · have := congrArg List.length hfe
      simp only [List.length_append] at this
      omega
  · exfalso
    obtain ⟨cc, ff, hff, hm2, hX, hqY2⟩ := h4
    rcases List.append_eq_append_iff.mp hqY2 with ⟨e, hffe, _⟩ | ⟨e, hqe, _⟩
    · have hocc : OccursIn q rawHost :=
        ⟨cc, e, by rw [hm2, hffe]; simp [List.append_assoc]⟩
      have htrue := (strContains_iff rawHost q).mpr hocc
      rw [hin] at htrue
      exact Bool.noConfusion htrue
    · have hffq : ff = q.take ff.length := by
        rw [hqe]
        exact (List.take_left ff e).symm
      have hfflen : 0 < ff.length := List.length_pos.mpr hff
      have hffle : ff.length ≤ q.length := by
        have := congrArg List.length hqe
        simp only [List.length_append] at this
        omega
      have hends : endsWithB rawHost ff = true := (endsWithB_iff _ _).mpr ⟨cc, hm2.symm⟩
      rw [hffq, hsuf ff.length hfflen hffle] at hends
      exact Bool.noConfusion hends

lemma no_g_after_gh_replace (u A B : List Char) (hcg : countOcc u githubHost ≤ 1)
    (hu : u = A ++ githubHost ++ B) : ¬ OccursIn githubHost (A ++ rawHost ++ B) := by
  rintro ⟨X, Y, hXY⟩
  rcases raw_region_no_occ githubHost X Y A B gh_ne_nil (by rw [gh_len, raw_len]; omega)
      gh_pre_facts gh_take_facts raw_no_gh hXY.symm with ⟨Z, hAZ, _⟩ | ⟨W, _, hBW⟩
  · have h1 : u = X ++ githubHost ++ (Z ++ githubHost ++ B) := by
      rw [hu, hAZ]
      simp [List.append_assoc]
    have hlt : X.length < A.length := by
      have := congrArg List.length hAZ
      simp only [List.length_append, gh_len] at this
      omega
    have h2occ := two_decomps_two_occ githubHost X (Z ++ githubHost ++ B) A B gh_ne_nil hlt
      (h1.symm.trans hu)
    rw [← h1] at h2occ
    omega
  · have h1 : u = A ++ githubHost ++ (W ++ githubHost ++ Y) := by rw [hu, hBW]
    have h2 : u = (A ++ githubHost ++ W) ++ githubHost ++ Y := by
      rw [h1]
      simp [List.append_assoc]
    have hlt : A.length < (A ++ githubHost ++ W).length := by
      simp only [List.length_append, gh_len]
      omega
    have h2occ := two_decomps_two_occ githubHost A (W ++ githubHost ++ Y)
      (A ++ githubHost ++ W) Y gh_ne_nil hlt (h1.symm.trans h2)
    rw [← h1] at h2occ
    omega

lemma countOcc_b_after_gh_replace (u A B : List Char) (hcb : countOcc u blobSeg ≤ 1)
    (hu : u = A ++ githubHost ++ B) : countOcc (A ++ rawHost ++ B) blobSeg ≤ 1 := by
  by_contra hge
  push_neg at hge
  obtain ⟨X, Y, X', Y', hd1, hd2, hlt⟩ :=
    ex_two_decomps (A ++ rawHost ++ B) blobSeg blob_ne_nil (by omega)
  have hclass : ∀ (X0 Y0 : List Char), A ++ rawHost ++ B = X0 ++ blobSeg ++ Y0 →
      (∃ Z, A = X0 ++ blobSeg ++ Z) ∨
      (∃ W, X0 = A ++ rawHost ++ W ∧ B = W ++ blobSeg ++ Y0) := by
    intro X0 Y0 hXY
    rcases raw_region_no_occ blobSeg X0 Y0 A B blob_ne_nil (by rw [blob_len, raw_len]; omega)
        blob_pre_facts blob_take_facts raw_no_blob hXY.symm with ⟨Z, hAZ, _⟩ | hw
    · exact Or.inl ⟨Z, hAZ⟩
    · exact Or.inr hw
  rcases hclass X Y hd1 with ⟨Z1, hA1⟩ | ⟨W1, hX1, hB1⟩ <;>
    rcases hclass X' Y' hd2 with ⟨Z2, hA2⟩ | ⟨W2, hX2, hB2⟩
  · have h1 : u = X ++ blobSeg ++ (Z1 ++ githubHost ++ B) := by
      rw [hu, hA1]
      simp [List.append_assoc]
    have h2 : u = X' ++ blobSeg ++ (Z2 ++ githubHost ++ B) := by
      rw [hu, hA2]
      simp [List.append_assoc]
    have := two_decomps_two_occ blobSeg X (Z1 ++ githubHost ++ B) X'
      (Z2 ++ githubHost ++ B) blob_ne_nil hlt (h1.symm.trans h2)
    rw [← h1] at this
    omega
  · have h1 : u = X ++ blobSeg ++ (Z1 ++ githubHost ++ B) := by
      rw [hu, hA1]
      simp [List.append_assoc]
    have h2 : u = (A ++ githubHost ++ W2) ++ blobSeg ++ Y' := by
      rw [hu, hB2]
      simp [List.append_assoc]
    have hlt2 : X.length < (A ++ githubHost ++ W2).length := by
      have := congrArg List.length hA1
      simp only [List.length_append, blob_len] at this
      simp only [List.length_append, gh_len]
      omega
    have := two_decomps_two_occ blobSeg X (Z1 ++ githubHost ++ B)
      (A ++ githubHost ++ W2) Y' blob_ne_nil hlt2 (h1.symm.trans h2)
    rw [← h1] at this
    omega
  · have l1 := congrArg List.length hX1
    have l2 := congrArg List.length hA2
    simp only [List.length_append, raw_len] at l1
    simp only [List.length_append, blob_len] at l2
    omega
  · have h1 : u = (A ++ githubHost ++ W1) ++ blobSeg ++ Y := by
      rw [hu, hB1]
      simp [List.append_assoc]
    have h2 : u = (A ++ githubHost ++ W2) ++ blobSeg ++ Y' := by
      rw [hu, hB2]
      simp [List.append_assoc]
    have hlt2 : (A ++ githubHost ++ W1).length < (A ++ githubHost ++ W2).length := by
      have l1 := congrArg List.length hX1
      have l2 := congrArg List.length hX2
      simp only [List.length_append, raw_len] at l1 l2
      simp only [List.length_append, gh_len]
      omega
    have := two_decomps_two_occ blobSeg (A ++ githubHost ++ W1) Y
      (A ++ githubHost ++ W2) Y' blob_ne_nil hlt2 (h1.symm.trans h2)
    rw [← h1] at this
    omega

lemma no_g_after_blob_replace (u1 A2 B2 : List Char) (hg1 : ¬ OccursIn githubHost u1)
    (hu1 : u1 = A2 ++ blobSeg ++ B2) : ¬ OccursIn githubHost (A2 ++ slashSeg ++ B2) := by
  rintro ⟨X, Y, hXY⟩
  rcases occ_decomp_middle X Y A2 slashSeg B2 githubHost slash_ne_nil hXY.symm with
    ⟨Z, hAZ, _⟩ | ⟨W, _, hBW⟩ | ⟨d, f, hd, hf, hq, _, hfY⟩ | ⟨cc, ff, hff, hm2, _, hqY2⟩
  · exact hg1 ⟨X, Z ++ blobSeg ++ B2, by rw [hu1, hAZ]; simp [List.append_assoc]⟩
  · exact hg1 ⟨A2 ++ blobSeg ++ W, Y, by rw [hu1, hBW]; simp [List.append_assoc]⟩
  · cases f with
    | nil => exact hf rfl
    | cons fh ft =>
      rw [slash_eq] at hfY
      simp only [List.cons_append, List.singleton_append, List.cons.injEq] at hfY
      apply slash_not_mem_gh
      rw [hq, hfY.1]
      simp
  · rcases cc with _ | ⟨c0, cc'⟩
    · have hffsl : ff = slashSeg := by simpa using hm2.symm
      rw [hffsl, slash_eq] at hqY2
      rcases hG : githubHost with _ | ⟨g0, grest⟩
      · exact gh_ne_nil hG
      · rw [hG] at hqY2
        simp only [List.cons_append, List.singleton_append, List.cons.injEq] at hqY2
        apply gh_headq
        rw [hG]
        simp [hqY2.1]
    · rw [slash_eq] at hm2
      simp only [List.cons_append, List.cons.injEq] at hm2
      rcases List.append_eq_nil.mp hm2.2.symm with ⟨_, h2⟩
      exact hff h2

lemma no_b_after_blob_replace (u1 A2 B2 : List Char) (hcb1 : countOcc u1 blobSeg ≤ 1)
    (hu1 : u1 = A2 ++ blobSeg ++ B2) : ¬ OccursIn blobSeg (A2 ++ slashSeg ++ B2) := by
  rintro ⟨X, Y, hXY⟩
  rcases occ_decomp_middle X Y A2 slashSeg B2 blobSeg slash_ne_nil hXY.symm with
    ⟨Z, hAZ, _⟩ | ⟨W, _, hBW⟩ | ⟨d, f, hd, hf, hq, hA, hfY⟩ | ⟨cc, ff, hff, hm2, _, hqY2⟩
  · have h1 : u1 = X ++ blobSeg ++ (Z ++ blobSeg ++ B2) := by
      rw [hu1, hAZ]
      simp [List.append_assoc]
    have hlt : X.length < A2.length := by
      have := congrArg List.length hAZ
      simp only [List.length_append, blob_len] at this
      omega
    have h2occ := two_decomps_two_occ blobSeg X (Z ++ blobSeg ++ B2) A2 B2 blob_ne_nil hlt
      (h1.symm.trans hu1)
    rw [← h1] at h2occ
    omega
  · have h1 : u1 = A2 ++ blobSeg ++ (W ++ blobSeg ++ Y) := by rw [hu1, hBW]
    have h2 : u1 = (A2 ++ blobSeg ++ W) ++ blobSeg ++ Y := by
      rw [h1]
      simp [List.append_assoc]
    have hlt : A2.length < (A2 ++ blobSeg ++ W).length := by
      simp only [List.length_append, blob_len]
      omega
    have h2occ := two_decomps_two_occ blobSeg A2 (W ++ blobSeg ++ Y)
      (A2 ++ blobSeg ++ W) Y blob_ne_nil hlt (h1.symm.trans h2)
    rw [← h1] at h2occ
    omega
  · have hfq : f = blobSeg.drop d.length := by
      rw [hq]
      exact (List.drop_left d f).symm
    have hdlen : 0 < d.length := List.length_pos.mpr hd
    have hlq := congrArg List.length hq
    simp only [List.length_append, blob_len] at hlq
    have hflen : 0 < f.length := List.length_pos.mpr hf
    have hfhead : f.head? = some slashChar := by
      rw [slash_eq] at hfY
      cases f with
      | nil => exact absurd rfl hf
      | cons fh ft =>
        simp only [List.cons_append, List.singleton_append, List.cons.injEq] at hfY
        simp [hfY.1]
    have hd5 : d.length = 5 := by
      have := blob_drop_headq ⟨d.length, by omega⟩ hdlen (by rw [← hfq]; exact hfhead)
      simpa using this
    have hdblob : d = blobHead := by
      have hdt : d = blobSeg.take d.length := by
        rw [hq]
        exact (List.take_left d f).symm
      rw [hdt, hd5, blob_take5]
    rw [hdblob] at hA
    have h1 : u1 = X ++ blobSeg ++ (blobTail ++ B2) := by
      rw [hu1, hA]
      have h0 : blobHead ++ (blobSeg ++ B2) = blobSeg ++ (blobTail ++ B2) := by
        rw [← List.append_assoc, ← List.append_assoc, blob_overlap]
      simp only [List.append_assoc]
      rw [h0]
    have hlt : X.length < A2.length := by
      have := congrArg List.length hA
      simp only [List.length_append, blobHead_len] at this
      omega
    have h2occ := two_decomps_two_occ blobSeg X (blobTail ++ B2) A2 B2 blob_ne_nil hlt
      (h1.symm.trans hu1)
    rw [← h1] at h2occ
    omega
  · rcases cc with _ | ⟨c0, cc'⟩
    · have hffsl : ff = slashSeg := by simpa using hm2.symm
      rw [hffsl, slash_eq, blob_eq_cons] at hqY2
      simp only [List.cons_append, List.singleton_append, List.cons.injEq,
        List.nil_append] at hqY2
      replace hqY2 := hqY2.2
      have h1 : u1 = A2 ++ blobSeg ++ (blobTail ++ Y) := by rw [hu1, ← hqY2]
      have h2 : u1 = (A2 ++ blobHead) ++ blobSeg ++ Y := by
        rw [h1]
        have h0 : blobSeg ++ (blobTail ++ Y) = blobHead ++ (blobSeg ++ Y) := by
          rw [← List.append_assoc, ← List.append_assoc, blob_overlap]
        simp only [List.append_assoc]
        rw [h0]
      have hlt : A2.length < (A2 ++ blobHead).length := by
        simp only [List.length_append, blobHead_len]
        omega
      have h2occ := two_decomps_two_occ blobSeg A2 (blobTail ++ Y) (A2 ++ blobHead) Y
        blob_ne_nil hlt (h1.symm.trans h2)
      rw [← h1] at h2occ
      omega
    · rw [slash_eq] at hm2
      simp only [List.cons_append, List.cons.injEq] at hm2
      rcases List.append_eq_nil.mp hm2.2.symm with ⟨_, h2⟩
      exact hff h2

/-- A string containing neither `github.com` nor `/blob/` is a fixed point
of `ConvertGitHubURL`. -/
lemma convert_fixed (v : List Char) (hg : ¬ OccursIn githubHost v)
    (hb : ¬ OccursIn blobSeg v) : ConvertGitHubURL v = v := by
  by_cases hrel : strContains v releasesSeg = true
  · simp [ConvertGitHubURL, hrel]
  · have hgf : strContains v githubHost = false := by
      cases hcase : strContains v githubHost
      · rfl
      · exact absurd ((strContains_iff _ _).mp hcase) hg
    have hbf : strContains v blobSeg = false := by
      cases hcase : strContains v blobSeg
      · rfl
      · exact absurd ((strContains_iff _ _).mp hcase) hb
    simp only [ConvertGitHubURL, if_neg hrel]
    rw [replaceFirst_id v githubHost rawHost hgf, replaceFirst_id v blobSeg slashSeg hbf]

/-- Claim C10: `ConvertGitHubURL` is the identity on every URL containing
`/releases/`, and is idempotent on every URL in which `github.com` and
`/blob/` each occur at most once. -/
theorem convertGitHubURL_releases_id_and_idempotent :
    (∀ u : List Char, OccursIn releasesSeg u → ConvertGitHubURL u = u) ∧
    (∀ u : List Char, countOcc u githubHost ≤ 1 → countOcc u blobSeg ≤ 1 →
        ConvertGitHubURL (ConvertGitHubURL u) = ConvertGitHubURL u) := by
  constructor
  · intro u h
    have htrue : strContains u releasesSeg = true := (strContains_iff _ _).mpr h
    simp [ConvertGitHubURL, htrue]
  · intro u hcg hcb
    by_cases hrel : strContains u releasesSeg = true
    · simp [ConvertGitHubURL, hrel]
    · have hconv : ConvertGitHubURL u =
          replaceFirst (replaceFirst u githubHost rawHost) blobSeg slashSeg := by
        simp [ConvertGitHubURL, hrel]
      have hfacts : ¬ OccursIn githubHost (replaceFirst u githubHost rawHost) ∧
          countOcc (replaceFirst u githubHost rawHost) blobSeg ≤ 1 := by
        by_cases hgu : strContains u githubHost = true
        · obtain ⟨A, B, hAB, hrep⟩ := replaceFirst_decomp u githubHost rawHost hgu
          rw [hrep]
          exact ⟨no_g_after_gh_replace u A B hcg hAB,
            countOcc_b_after_gh_replace u A B hcb hAB⟩
        · have hfalse : strContains u githubHost = false := by
            cases hcase : strContains u githubHost
            · rfl
            · exact absurd hcase hgu
          rw [replaceFirst_id u githubHost rawHost hfalse]
          exact ⟨fun hocc => hgu ((strContains_iff _ _).mpr hocc), hcb⟩
      obtain ⟨hg1, hb1⟩ := hfacts
      rw [hconv]
      by_cases hbu1 : strContains (replaceFirst u githubHost rawHost) blobSeg = true
      · obtain ⟨A2, B2, hA2, hrep2⟩ :=
          replaceFirst_decomp (replaceFirst u githubHost rawHost) blobSeg slashSeg hbu1
        rw [hrep2]
        exact convert_fixed _ (no_g_after_blob_replace _ A2 B2 hg1 hA2)
          (no_b_after_blob_replace _ A2 B2 hb1 hA2)
      · have hfalse2 : strContains (replaceFirst u githubHost rawHost) blobSeg = false := by
          cases hcase : strContains (replaceFirst u githubHost rawHost) blobSeg
          · rfl
          · exact absurd hcase hbu1
        rw [replaceFirst_id _ blobSeg slashSeg hfalse2]
        exact convert_fixed _ hg1 (fun hocc => hbu1 ((strContains_iff _ _).mpr hocc))

theorem convertGitHubURL_witness :
    ConvertGitHubURL ("https://github.com/a/b/releases/download/v1/x.zip".toList) =
      "https://github.com/a/b/releases/download/v1/x.zip".toList ∧
    ConvertGitHubURL (ConvertGitHubURL ("https://github.com/a/b/blob/main/x.txt".toList)) =
      ConvertGitHubURL ("https://github.com/a/b/blob/main/x.txt".toList) := by
  constructor
  · exact convertGitHubURL_releases_id_and_idempotent.1 _
      ⟨"https://github.com/a/b".toList, "download/v1/x.zip".toList, by decide⟩
  · exact convertGitHubURL_releases_id_and_idempotent.2 _ (by decide) (by decide)

end Downtools
